import Mathlib

set_option maxHeartbeats 1000000

/-!
Verification of the dataplug/Lithops FASTA partitioning pipeline exercised by the
notebook.  The demo worker `process_fasta_partition` is embedded directly from the
notebook source; the dataplug library operations it calls (`preprocess`,
`partition` with `partition_chunks_strategy`, `attributes`, slice `get`) are not
shipped in this repository, so they are modelled from the specification.

Bytes of the remote object are modelled as characters: all the data involved is
ASCII, where UTF-8 decoding is the identity on the byte sequence.
-/

/-- Python `s.split` on the single newline character: every newline separates two
fragments, so `n` newlines yield `n + 1` fragments, empty fragments included. -/
def splitLines : List Char → List (List Char)
  | [] => [[]]
  | c :: rest =>
    if c = '\n' then [] :: splitLines rest
    else
      match splitLines rest with
      | [] => [[c]]
      | l :: ls => (c :: l) :: ls

/-- Python `line.strip`: drop whitespace from both ends of the line. -/
def strip (l : List Char) : List Char :=
  ((l.dropWhile Char.isWhitespace).reverse.dropWhile Char.isWhitespace).reverse

/-- Python `line.startswith` applied to the FASTA record-header sentinel. -/
def startsWithGt : List Char → Bool
  | [] => false
  | c :: _ => c = '>'

/-- The dictionary returned by the notebook worker `process_fasta_partition`. -/
structure FastaStats where
  record_count : Nat
  min_length : Option Nat
  max_length : Option Nat
  deriving DecidableEq

/-- The accumulation loop of `process_fasta_partition`, embedded from the notebook:
it walks the decoded lines keeping the current `sequence` accumulator, pushes the
accumulated length whenever a header line is met with a nonempty accumulator, and
pushes the trailing accumulator at the end.  It returns `read_lengths`. -/
def processLines : List (List Char) → List Char → List Nat
  | [], sequence => if sequence.isEmpty then [] else [sequence.length]
  | l :: ls, sequence =>
    if startsWithGt l then
      if sequence.isEmpty then processLines ls []
      else sequence.length :: processLines ls []
    else
      processLines ls (sequence ++ strip l)

/-- The notebook worker, embedded from the source: decode the chunk, split on
newlines, accumulate sequence lengths, and report count / min / max. -/
def process_fasta_partition (fasta_chunk : List Char) : FastaStats :=
  let read_lengths := processLines (splitLines fasta_chunk) []
  if read_lengths.isEmpty then
    { record_count := 0, min_length := none, max_length := none }
  else
    { record_count := read_lengths.length
      min_length := read_lengths.min?
      max_length := read_lengths.max? }

/-- Modelled from the spec: the chunk size used by the reference contiguous
strategy, `ceil(total_size / num_chunks)`. -/
def chunkSize (total_size num_chunks : Nat) : Nat :=
  (total_size + num_chunks - 1) / num_chunks

/-- Modelled from the spec: the reference contiguous strategy
`partition_chunks_strategy` (not shipped in this repository).  It emits
`num_chunks` contiguous ranges of `chunkSize` bytes clamped to `total_size`,
covering `[0, total_size)` in ascending order, empty trailing ranges allowed in
the degenerate case. -/
def partition_chunks_strategy (total_size num_chunks : Nat) : List (Nat × Nat) :=
  (List.range num_chunks).map fun i =>
    (min (i * chunkSize total_size num_chunks) total_size,
     min ((i + 1) * chunkSize total_size num_chunks) total_size)

/-- Sizes of the byte ranges planned by the reference contiguous strategy. -/
def rangeSizes (total_size num_chunks : Nat) : List Nat :=
  (partition_chunks_strategy total_size num_chunks).map fun r => r.2 - r.1

/-- Modelled from the spec: `read_range(start, end)` returns the raw bytes of
`[start, end)` of the remote object; each call is one remote GET. -/
def read_range (obj : List Char) (s e : Nat) : List Char :=
  (obj.drop s).take (e - s)

/-- The list of byte payloads of the slices planned for `obj` by the given
ranges, each obtained through `read_range`. -/
def slicesOf (obj : List Char) (ranges : List (Nat × Nat)) : List (List Char) :=
  ranges.map fun r => read_range obj r.1 r.2

/-- Modelled from the spec: split `[0, t)` into `ceil(t / cs)` contiguous ranges
of `cs` bytes each, the final range possibly shorter — the chunking
preprocessing dispatches its parallel range-scan tasks over. -/
def splitRanges (t cs : Nat) : List (Nat × Nat) :=
  (List.range ((t + cs - 1) / cs)).map fun i =>
    (min (i * cs) t, min ((i + 1) * cs) t)

/-- Modelled from the spec: position `p` starts a record if the byte there is the
header sentinel and it begins a line (start of object, or right after a newline —
the neighbouring boundary byte a range-scan task peeks at). -/
def isHeaderStart (obj : List Char) (p : Nat) : Bool :=
  (obj.getD p ' ' == '>') && (p == 0 || obj.getD (p - 1) ' ' == '\n')

/-- Modelled from the spec: the per-range scan task of preprocessing — it locates
the record-start markers lying inside its byte range `[r.1, r.2)`. -/
def scanRange (obj : List Char) (r : Nat × Nat) : List Nat :=
  (List.range' r.1 (r.2 - r.1)).filter fun p => isHeaderStart obj p

/-- The index artifact produced by preprocessing (entries are the record start
offsets, ascending). -/
structure ObjectIndex where
  entries : List Nat
  record_count : Nat
  total_size_bytes : Nat
  deriving DecidableEq

/-- Modelled from the spec: `preprocess` splits the object into chunks, runs one
scan task per chunk, and merges the per-chunk observations in range order; a
chunk beginning without a header contributes nothing new there (continuation of
the previous record). -/
def preprocess (obj : List Char) (chunk_size : Nat) : ObjectIndex :=
  let entries := ((splitRanges obj.length chunk_size).map (scanRange obj)).flatten
  { entries := entries, record_count := entries.length, total_size_bytes := obj.length }

/-- An independent single-pass scan: walk the bytes once, tracking whether the
current byte begins a line, and count header sentinels at line starts. -/
def countScan : List Char → Bool → Nat
  | [], _ => 0
  | c :: rest, atLineStart =>
    (if atLineStart && c == '>' then 1 else 0) + countScan rest (c == '\n')

/-- Header-sentinel count of the full, unpartitioned object by one linear scan. -/
def countHeadersScan (obj : List Char) : Nat := countScan obj true

/-- The read-only attribute facade over the index. -/
structure Attributes where
  num_sequences : Nat
  deriving DecidableEq

/-- The error taxonomy of the library, from the spec. -/
inductive DataplugError where
  | notFound
  | ioError
  | formatError
  | preconditionError
  | invalidArgumentError
  deriving DecidableEq

/-- The client-visible state of a cloud object: whether an index has been built. -/
structure CloudObjectState where
  indexed : Option ObjectIndex
  deriving DecidableEq

/-- Modelled from the spec: `attributes(handle)` fails with a precondition error
when no index has been built yet, and never mutates the state (preprocessing is
not implicitly triggered). -/
def attributes (st : CloudObjectState) :
    Except DataplugError Attributes × CloudObjectState :=
  match st.indexed with
  | none => (.error .preconditionError, st)
  | some idx => (.ok { num_sequences := idx.record_count }, st)

/-- Modelled from the spec: `partition` validates its arguments synchronously and
is purely computational; the second component is the trace of remote reads it
performs. -/
def partition (index : ObjectIndex) (num_chunks : Int) :
    Except DataplugError (List (Nat × Nat)) × List (Nat × Nat) :=
  if num_chunks ≤ 0 then (.error .invalidArgumentError, [])
  else (.ok (partition_chunks_strategy index.total_size_bytes num_chunks.toNat), [])

/-- A lazy, serializable reference to one byte range of the remote object. -/
structure PartitionSlice where
  start : Nat
  stop : Nat
  deriving DecidableEq

/-- Modelled from the spec: `slice.get()` issues exactly one `read_range` against
the owning handle and returns the raw bytes untransformed; the second component
is the trace of `read_range` calls issued. -/
def PartitionSlice.get (obj : List Char) (sl : PartitionSlice) :
    List Char × List (Nat × Nat) :=
  (read_range obj sl.start sl.stop, [(sl.start, sl.stop)])

/-- Modelled from the spec: a persisted cache of index artifacts keyed by object
identity and preprocessing config. -/
def IndexCache : Type := List ((List Char × Nat) × ObjectIndex)

/-- Modelled from the spec: `preprocess` with the persistence layer — a repeated
request with the same key returns the stored index and skips re-scanning. -/
def preprocessCached (obj : List Char) (chunk_size : Nat) (cache : IndexCache) :
    ObjectIndex × IndexCache :=
  match List.find? (fun kv => kv.1.1 == obj && kv.1.2 == chunk_size) cache with
  | some kv => (kv.2, cache)
  | none =>
    let idx := preprocess obj chunk_size
    (idx, ((obj, chunk_size), idx) :: cache)

/-- Start offset of the `i`-th byte range planned by the reference strategy. -/
def rangeStart (t n i : Nat) : Nat :=
  ((partition_chunks_strategy t n).getD i (0, 0)).1

/-- Stop offset (exclusive) of the `i`-th byte range planned by the reference
strategy. -/
def rangeStop (t n i : Nat) : Nat :=
  ((partition_chunks_strategy t n).getD i (0, 0)).2

/-- Second definition, following the words of claim C10 only: the decoded lines
are grouped into maximal runs of consecutive non-header lines. -/
def maximalRuns : List (List Char) → List (List (List Char))
  | [] => []
  | l :: ls =>
    if startsWithGt l then maximalRuns ls
    else
      (l :: ls.takeWhile fun x => !startsWithGt x) ::
        maximalRuns (ls.dropWhile fun x => !startsWithGt x)
  termination_by lines => lines.length
  decreasing_by
    all_goals
      have h1 : (List.dropWhile (fun x => !startsWithGt x) ls).length ≤ ls.length :=
        (List.dropWhile_suffix _).sublist.length_le
      simp only [List.length_cons]
      omega

/-- Second definition, following the words of claim C10 only: the number of
maximal runs of non-header lines carrying nonempty stripped content. -/
def spec_record_count (lines : List (List Char)) : Nat :=
  ((maximalRuns lines).filter fun run =>
    run.any fun l => !(strip l).isEmpty).length

/-- Bridging recursion between the worker loop and the run count of claim C10:
walk the lines keeping one flag, whether the current run of non-header lines has
accumulated nonempty stripped content; a header line or the end of the chunk
closes the run, contributing one record when the flag is set. -/
def countRunsAux : List (List Char) → Bool → Nat
  | [], acc => if acc then 1 else 0
  | l :: ls, acc =>
    if startsWithGt l then (if acc then 1 else 0) + countRunsAux ls false
    else countRunsAux ls (acc || !(strip l).isEmpty)

theorem partition_chunks_getD (t n i : Nat) (h : i < n) :
    (partition_chunks_strategy t n).getD i (0, 0) =
      (min (i * chunkSize t n) t, min ((i + 1) * chunkSize t n) t) := by
  simp [partition_chunks_strategy, List.getD_eq_getElem?_getD, List.getElem?_map,
    List.getElem?_range, h]

theorem rangeStart_eq (t n i : Nat) (h : i < n) :
    rangeStart t n i = min (i * chunkSize t n) t := by
  rw [rangeStart, partition_chunks_getD t n i h]

theorem rangeStop_eq (t n i : Nat) (h : i < n) :
    rangeStop t n i = min ((i + 1) * chunkSize t n) t := by
  rw [rangeStop, partition_chunks_getD t n i h]

theorem chunkSize_le_iff (t n k : Nat) (hn : 1 ≤ n) : chunkSize t n ≤ k ↔ t ≤ k * n := by
  unfold chunkSize
  rw [Nat.div_le_iff_le_mul_add_pred hn, Nat.mul_comm n k]
  omega

theorem le_mul_chunkSize (t n : Nat) (hn : 1 ≤ n) : t ≤ chunkSize t n * n :=
  (chunkSize_le_iff t n (chunkSize t n) hn).mp (Nat.le_refl _)

theorem one_le_chunkSize (t n : Nat) (ht : 1 ≤ t) (hn : 1 ≤ n) : 1 ≤ chunkSize t n := by
  unfold chunkSize
  rw [Nat.one_le_div_iff hn]
  omega

/-- C1 counterexample: with `total_size = 1` and `num_chunks = 3` (both satisfying
the claim's bounds) the reference strategy returns three ranges whose offsets are
0, 1, 1 — not strictly increasing, falsifying the claim as stated. -/
theorem c1_counterexample :
    (1 : Nat) ≥ 1 ∧ (3 : Nat) ≥ 1 ∧
    (partition_chunks_strategy 1 3).length = 3 ∧
    ¬ (∀ i j : Fin 3, i < j → rangeStart 1 3 i.val < rangeStart 1 3 j.val) := by
  decide

/-- C1 (amended): for every `total_size ≥ 1` and `num_chunks ≥ 1` the reference
contiguous strategy returns exactly `num_chunks` byte ranges that are contiguous,
non-overlapping and well-formed, with non-decreasing (rather than strictly
increasing) offsets, and whose union is exactly `[0, total_size)`: the first
range starts at 0, the last ends at `total_size`, each range's stop is the next
range's start, and every byte below `total_size` is covered by some range. -/
theorem c1_partition_ranges (t n : Nat) (ht : 1 ≤ t) (hn : 1 ≤ n) :
    (partition_chunks_strategy t n).length = n ∧
    (∀ i, i + 1 < n → rangeStop t n i = rangeStart t n (i + 1)) ∧
    (∀ i, i < n → rangeStart t n i ≤ rangeStop t n i) ∧
    (∀ i j, i < j → j < n → rangeStart t n i ≤ rangeStart t n j) ∧
    (∀ i j, i < j → j < n → rangeStop t n i ≤ rangeStart t n j) ∧
    rangeStart t n 0 = 0 ∧
    rangeStop t n (n - 1) = t ∧
    (∀ x, x < t → ∃ i, i < n ∧ rangeStart t n i ≤ x ∧ x < rangeStop t n i) := by
  have hcs : 1 ≤ chunkSize t n := one_le_chunkSize t n ht hn
  have htn : t ≤ chunkSize t n * n := le_mul_chunkSize t n hn
  refine ⟨?_, ?_, ?_, ?_, ?_, ?_, ?_, ?_⟩
  · simp [partition_chunks_strategy]
  · intro i hi
    rw [rangeStop_eq t n i (by omega), rangeStart_eq t n (i + 1) hi]
  · intro i hi
    rw [rangeStart_eq t n i hi, rangeStop_eq t n i hi]
    have h1 : i * chunkSize t n ≤ (i + 1) * chunkSize t n :=
      Nat.mul_le_mul_right _ (by omega)
    omega
  · intro i j hij hj
    rw [rangeStart_eq t n i (by omega), rangeStart_eq t n j hj]
    have h1 : i * chunkSize t n ≤ j * chunkSize t n :=
      Nat.mul_le_mul_right _ (by omega)
    omega
  · intro i j hij hj
    rw [rangeStop_eq t n i (by omega), rangeStart_eq t n j hj]
    have h1 : (i + 1) * chunkSize t n ≤ j * chunkSize t n :=
      Nat.mul_le_mul_right _ (by omega)
    omega
  · rw [rangeStart_eq t n 0 (by omega)]
    simp
  · rw [rangeStop_eq t n (n - 1) (by omega)]
    have h1 : (n - 1 + 1) * chunkSize t n = chunkSize t n * n := by
      rw [Nat.sub_add_cancel hn, Nat.mul_comm]
    omega
  · intro x hx
    have hcomm : chunkSize t n * n = n * chunkSize t n := Nat.mul_comm _ _
    have hin : x / chunkSize t n < n := by
      rw [Nat.div_lt_iff_lt_mul hcs]
      omega
    refine ⟨x / chunkSize t n, hin, ?_, ?_⟩
    · rw [rangeStart_eq t n _ hin]
      have h1 : x / chunkSize t n * chunkSize t n ≤ x := Nat.div_mul_le_self _ _
      omega
    · rw [rangeStop_eq t n _ hin]
      have h1 : x < (x / chunkSize t n + 1) * chunkSize t n := by
        rw [Nat.succ_mul]
        have h2 := Nat.div_add_mod x (chunkSize t n)
        have h3 := Nat.mod_lt x hcs
        have h4 : chunkSize t n * (x / chunkSize t n)
            = x / chunkSize t n * chunkSize t n := Nat.mul_comm _ _
        omega
      omega

/-- Witness for C1 (amended) at `total_size = 10`, `num_chunks = 3`. -/
theorem c1_witness :
    (1 : Nat) ≤ 10 ∧ (1 : Nat) ≤ 3 ∧
    ((partition_chunks_strategy 10 3).length = 3 ∧ rangeStart 10 3 0 = 0 ∧
      rangeStop 10 3 2 = 10) :=
  ⟨by decide, by decide,
    have h := c1_partition_ranges 10 3 (by decide) (by decide)
    ⟨h.1, h.2.2.2.2.2.1, h.2.2.2.2.2.2.1⟩⟩

/-- C2 counterexample: for `total_size = 6`, `num_chunks = 5` the chunk size is 2
and the planned sizes are `[2, 2, 2, 0, 0]` — the range at index 3 is not the
final one yet is shorter than `chunk_size`, falsifying "only the final range
possibly shorter" as a universal statement. -/
theorem c2_counterexample :
    chunkSize 6 5 = 2 ∧
    rangeSizes 6 5 = [2, 2, 2, 0, 0] ∧
    (3 + 1 < (rangeSizes 6 5).length ∧ (rangeSizes 6 5).getD 3 0 ≠ chunkSize 6 5) := by
  decide

/-- C2 (amended): the reference contiguous strategy computes
`chunk_size = ceil(total_size / num_chunks)` (characterized by
`chunk_size ≤ k ↔ total_size ≤ k * num_chunks`) and emits `num_chunks`
contiguous ranges in ascending order; every range that ends at or before
`total_size` has size exactly `chunk_size`, and the final range is the shorter
remainder whenever the first `num_chunks - 1` ranges do not already exhaust the
object (the claim's "only the final range possibly shorter" holds in that
non-degenerate case, but empty non-final ranges occur when the data runs out
early).  In particular, for an object of exactly 29903 bytes and
`num_chunks = 8`, the 8 planned sizes are
`[3738, 3738, 3738, 3738, 3738, 3738, 3738, 3737]`. -/
theorem c2_chunk_sizes (t n : Nat) (hn : 1 ≤ n) :
    (∀ k, chunkSize t n ≤ k ↔ t ≤ k * n) ∧
    (rangeSizes t n).length = n ∧
    (∀ i, i < n → (i + 1) * chunkSize t n ≤ t →
      (rangeSizes t n).getD i 0 = chunkSize t n) ∧
    ((n - 1) * chunkSize t n ≤ t →
      (rangeSizes t n).getD (n - 1) 0 = t - (n - 1) * chunkSize t n) ∧
    rangeSizes 29903 8 = [3738, 3738, 3738, 3738, 3738, 3738, 3738, 3737] := by
  have htn : t ≤ chunkSize t n * n := le_mul_chunkSize t n hn
  have hsize : ∀ i, i < n →
      (rangeSizes t n).getD i 0
        = min ((i + 1) * chunkSize t n) t - min (i * chunkSize t n) t := by
    intro i hi
    simp [rangeSizes, List.getD_eq_getElem?_getD, List.getElem?_map,
      partition_chunks_strategy, List.getElem?_range, hi]
  refine ⟨fun k => chunkSize_le_iff t n k hn, ?_, ?_, ?_, ?_⟩
  · simp [rangeSizes, partition_chunks_strategy]
  · intro i hi hfit
    rw [hsize i hi]
    have h1 : i * chunkSize t n ≤ (i + 1) * chunkSize t n :=
      Nat.mul_le_mul_right _ (by omega)
    have h2 : (i + 1) * chunkSize t n = i * chunkSize t n + chunkSize t n :=
      Nat.succ_mul _ _
    omega
  · intro hfit
    rw [hsize (n - 1) (by omega)]
    have h1 : (n - 1 + 1) * chunkSize t n = chunkSize t n * n := by
      rw [Nat.sub_add_cancel hn, Nat.mul_comm]
    omega
  · decide

/-- Witness for C2 (amended) at `total_size = 29903`, `num_chunks = 8`. -/
theorem c2_witness :
    (1 : Nat) ≤ 8 ∧
    rangeSizes 29903 8 = [3738, 3738, 3738, 3738, 3738, 3738, 3738, 3737] :=
  ⟨by decide, (c2_chunk_sizes 29903 8 (by decide)).2.2.2.2⟩

/-- C6: preprocessing is idempotent — running `preprocess` twice with the same
chunking config on the unchanged object, through the persistence layer and from
any starting cache, yields index artifacts with identical `entries`,
`record_count` and `total_size_bytes`. -/
theorem c6_preprocess_idempotent (obj : List Char) (chunk_size : Nat)
    (cache : IndexCache) :
    ((preprocessCached obj chunk_size
        (preprocessCached obj chunk_size cache).2).1).entries
      = ((preprocessCached obj chunk_size cache).1).entries ∧
    ((preprocessCached obj chunk_size
        (preprocessCached obj chunk_size cache).2).1).record_count
      = ((preprocessCached obj chunk_size cache).1).record_count ∧
    ((preprocessCached obj chunk_size
        (preprocessCached obj chunk_size cache).2).1).total_size_bytes
      = ((preprocessCached obj chunk_size cache).1).total_size_bytes := by
  suffices h : (preprocessCached obj chunk_size
      (preprocessCached obj chunk_size cache).2).1
        = (preprocessCached obj chunk_size cache).1 by
    rw [h]
    exact ⟨rfl, rfl, rfl⟩
  cases hfind : List.find? (fun kv => kv.1.1 == obj && kv.1.2 == chunk_size) cache with
  | some kv => simp [preprocessCached, hfind]
  | none => simp [preprocessCached, hfind, List.find?]

/-- C7: calling `partition` with `num_chunks = 0` or negative fails with
`InvalidArgumentError` synchronously, with an empty trace of remote reads — no
`read_range` or other remote call is issued on the error path. -/
theorem c7_invalid_num_chunks (index : ObjectIndex) (num_chunks : Int)
    (h : num_chunks ≤ 0) :
    partition index num_chunks
      = (Except.error DataplugError.invalidArgumentError, []) := by
  simp [partition, h]

/-- Witness for C7 at `num_chunks = -3`. -/
theorem c7_witness :
    (-3 : Int) ≤ 0 ∧
    partition { entries := [0], record_count := 1, total_size_bytes := 10 } (-3)
      = (Except.error DataplugError.invalidArgumentError, []) :=
  ⟨by decide, c7_invalid_num_chunks _ _ (by decide)⟩

/-- C8: accessing `attributes` on a handle with no index built fails with
`PreconditionError` and leaves the state unchanged (preprocessing is never
implicitly triggered); once an index exists the same access succeeds, again
without touching the state. -/
theorem c8_attributes_precondition (st : CloudObjectState) :
    (st.indexed = none →
      attributes st = (Except.error DataplugError.preconditionError, st)) ∧
    (∀ idx : ObjectIndex, st.indexed = some idx →
      attributes st = (Except.ok { num_sequences := idx.record_count }, st)) := by
  constructor
  · intro h
    simp [attributes, h]
  · intro idx h
    simp [attributes, h]

/-- Witness for C8: before any preprocessing the access fails; after an index is
installed the same access succeeds. -/
theorem c8_witness :
    attributes { indexed := none }
      = (Except.error DataplugError.preconditionError, { indexed := none }) ∧
    attributes { indexed := some (preprocess [] 1) }
      = (Except.ok { num_sequences := (preprocess [] 1).record_count },
          { indexed := some (preprocess [] 1) }) :=
  ⟨(c8_attributes_precondition { indexed := none }).1 rfl,
    (c8_attributes_precondition _).2 _ rfl⟩

/-- C9: `slice.get()` issues exactly one `read_range` call against the owning
handle, covering precisely `[start, stop)`, and returns the raw undecoded bytes
of that range: the byte at position `i` of the result is the object's byte at
position `start + i`, and the result's length is the full range size clamped to
the object's end. -/
theorem c9_slice_get (obj : List Char) (sl : PartitionSlice) :
    (PartitionSlice.get obj sl).2.length = 1 ∧
    (PartitionSlice.get obj sl).2 = [(sl.start, sl.stop)] ∧
    (PartitionSlice.get obj sl).1 = read_range obj sl.start sl.stop ∧
    (∀ i, i < sl.stop - sl.start →
      ((PartitionSlice.get obj sl).1)[i]? = obj[sl.start + i]?) ∧
    (PartitionSlice.get obj sl).1.length
      = min (sl.stop - sl.start) (obj.length - sl.start) := by
  refine ⟨rfl, rfl, rfl, ?_, ?_⟩
  · intro i hi
    show ((obj.drop sl.start).take (sl.stop - sl.start))[i]? = obj[sl.start + i]?
    rw [List.getElem?_take_of_lt hi, List.getElem?_drop]
  · show ((obj.drop sl.start).take (sl.stop - sl.start)).length = _
    simp [List.length_take, List.length_drop]

/-- Witness for C9 on a five-byte object and the slice `[1, 3)`. -/
theorem c9_witness :
    (0 : Nat) < 3 - 1 ∧
    ((PartitionSlice.get "abcde".toList { start := 1, stop := 3 }).1)[0]?
      = ("abcde".toList)[1 + 0]? :=
  ⟨by decide,
    (c9_slice_get "abcde".toList { start := 1, stop := 3 }).2.2.2.1 0 (by decide)⟩

theorem processLines_length (ls : List (List Char)) :
    ∀ sequence : List Char,
      (processLines ls sequence).length = countRunsAux ls (!sequence.isEmpty) := by
  induction ls with
  | nil =>
    intro seq
    by_cases h : seq.isEmpty <;> simp [processLines, countRunsAux, h]
  | cons l ls ih =>
    intro seq
    by_cases hl : startsWithGt l
    · by_cases hs : seq.isEmpty <;>
        simp [processLines, countRunsAux, hl, hs, ih] <;> omega
    · have he : (!(seq ++ strip l).isEmpty) = (!seq.isEmpty || !(strip l).isEmpty) := by
        cases seq <;> simp
      simp [processLines, countRunsAux, hl, ih, he]

theorem countRunsAux_run (t : List (List Char)) :
    ∀ (r : List (List Char)) (acc : Bool),
      (∀ x ∈ t, startsWithGt x = false) →
      (∀ hd, r.head? = some hd → startsWithGt hd = true) →
      countRunsAux (t ++ r) acc
        = (if acc || t.any (fun l => !(strip l).isEmpty) then 1 else 0)
            + countRunsAux r false := by
  induction t with
  | nil =>
    intro r acc ht hr
    cases r with
    | nil => cases acc <;> simp [countRunsAux]
    | cons hd rs =>
      have hh : startsWithGt hd = true := hr hd rfl
      cases acc <;> simp [countRunsAux, hh]
  | cons x t ih =>
    intro r acc ht hr
    have hx : startsWithGt x = false := ht x (by simp)
    have ht' : ∀ y ∈ t, startsWithGt y = false := fun y hy => ht y (by simp [hy])
    simp only [List.cons_append]
    rw [show countRunsAux (x :: (t ++ r)) acc
        = countRunsAux (t ++ r) (acc || !(strip x).isEmpty) by
      simp [countRunsAux, hx]]
    rw [ih r _ ht' hr]
    simp [Bool.or_assoc]

theorem head_dropWhile_false (p : List Char → Bool) :
    ∀ (l : List (List Char)) (hd : List Char),
      (l.dropWhile p).head? = some hd → p hd = false := by
  intro l
  induction l with
  | nil =>
    intro hd h
    simp [List.dropWhile] at h
  | cons x xs ih =>
    intro hd h
    by_cases hx : p x
    · rw [List.dropWhile_cons_of_pos hx] at h
      exact ih hd h
    · rw [List.dropWhile_cons_of_neg hx] at h
      simp only [List.head?_cons, Option.some.injEq] at h
      subst h
      simpa using hx

theorem countRunsAux_eq_spec (lines : List (List Char)) :
    countRunsAux lines false = spec_record_count lines := by
  induction lines using maximalRuns.induct with
  | case1 => simp [countRunsAux, spec_record_count, maximalRuns]
  | case2 l ls hl ih =>
    simp [countRunsAux, hl, spec_record_count, maximalRuns, ih]
  | case3 l ls hl ih =>
    have hld : l :: ls
        = (l :: ls.takeWhile (fun x => !startsWithGt x))
          ++ ls.dropWhile (fun x => !startsWithGt x) := by
      rw [List.cons_append, List.takeWhile_append_dropWhile]
    have ht : ∀ x ∈ l :: ls.takeWhile (fun x => !startsWithGt x),
        startsWithGt x = false := by
      intro x hx
      rcases List.mem_cons.mp hx with h | h
      · subst h
        simpa using hl
      · have h2 := List.mem_takeWhile_imp h
        simpa using h2
    have hr : ∀ hd, (ls.dropWhile (fun x => !startsWithGt x)).head? = some hd →
        startsWithGt hd = true := by
      intro hd hhd
      have h1 := head_dropWhile_false (fun x => !startsWithGt x) ls hd hhd
      simpa using h1
    have hrun := countRunsAux_run (l :: ls.takeWhile (fun x => !startsWithGt x))
      (ls.dropWhile (fun x => !startsWithGt x)) false ht hr
    have hmr : maximalRuns (l :: ls)
        = (l :: ls.takeWhile (fun x => !startsWithGt x))
          :: maximalRuns (ls.dropWhile (fun x => !startsWithGt x)) := by
      rw [maximalRuns]
      simp [hl]
    conv_lhs => rw [hld]
    rw [hrun, ih]
    simp only [spec_record_count, hmr, List.filter_cons]
    cases hany : (l :: ls.takeWhile (fun x => !startsWithGt x)).any
        (fun l => !(strip l).isEmpty) <;>
      simp [hany] <;> omega

/-- C10: for every input chunk the demo worker returns `record_count` equal to
the number of maximal runs of non-header lines carrying nonempty stripped
content — a header immediately followed by another header or the end of the
chunk contributes no record — and a chunk with no nonempty sequence content
returns exactly `record_count = 0`, `min_length = None`, `max_length = None`. -/
theorem c10_record_count (fasta_chunk : List Char) :
    (process_fasta_partition fasta_chunk).record_count
      = spec_record_count (splitLines fasta_chunk) ∧
    (spec_record_count (splitLines fasta_chunk) = 0 →
      process_fasta_partition fasta_chunk
        = { record_count := 0, min_length := none, max_length := none }) := by
  have h1 : (processLines (splitLines fasta_chunk) []).length
      = countRunsAux (splitLines fasta_chunk) false := by
    simpa using processLines_length (splitLines fasta_chunk) []
  have h2 : (processLines (splitLines fasta_chunk) []).length
      = spec_record_count (splitLines fasta_chunk) := by
    rw [h1, countRunsAux_eq_spec]
  constructor
  · unfold process_fasta_partition
    by_cases h : (processLines (splitLines fasta_chunk) []).isEmpty
    · have h0 : (processLines (splitLines fasta_chunk) []).length = 0 := by
        simpa [List.isEmpty_iff_length_eq_zero] using h
      simp [h, ← h2, h0]
    · simp [h, h2]
  · intro h0
    have hlen : (processLines (splitLines fasta_chunk) []).length = 0 := by
      rw [h2, h0]
    have hemp : (processLines (splitLines fasta_chunk) []).isEmpty = true := by
      simpa [List.isEmpty_iff_length_eq_zero] using hlen
    unfold process_fasta_partition
    simp [hemp]

/-- Witness for C10 on the chunk consisting of the sole header line `>ab`. -/
theorem c10_witness :
    spec_record_count (splitLines ['>', 'a', 'b']) = 0 ∧
    process_fasta_partition ['>', 'a', 'b']
      = { record_count := 0, min_length := none, max_length := none } :=
  ⟨by simp [spec_record_count, maximalRuns, splitLines, startsWithGt],
   (c10_record_count ['>', 'a', 'b']).2
     (by simp [spec_record_count, maximalRuns, splitLines, startsWithGt])⟩

theorem flatten_map_filter (p : Nat → Bool) (rs : List (Nat × Nat)) :
    ((rs.map fun r => (List.range' r.1 (r.2 - r.1)).filter p).flatten)
      = ((rs.map fun r => List.range' r.1 (r.2 - r.1)).flatten).filter p := by
  induction rs with
  | nil => simp
  | cons r rs ih => simp [ih, List.filter_append]

theorem flatten_range_chunks (t cs : Nat) :
    ∀ n, ((List.range n).map fun i =>
        List.range' (min (i * cs) t) (min ((i + 1) * cs) t - min (i * cs) t)).flatten
      = List.range' 0 (min (n * cs) t) := by
  intro n
  induction n with
  | zero => simp
  | succ n ih =>
    rw [List.range_succ, List.map_append, List.flatten_append, ih]
    simp only [List.map_cons, List.map_nil, List.flatten_cons, List.flatten_nil,
      List.append_nil]
    have hab : min (n * cs) t ≤ min ((n + 1) * cs) t := by
      have h1 : n * cs ≤ (n + 1) * cs := Nat.mul_le_mul_right _ (by omega)
      omega
    have := List.range'_append 0 (min (n * cs) t)
      (min ((n + 1) * cs) t - min (n * cs) t) 1
    simp only [Nat.one_mul, Nat.zero_add] at this
    rw [this]
    congr 1
    omega

theorem splitRanges_flatten (t cs : Nat) (hcs : 1 ≤ cs) :
    ((splitRanges t cs).map fun r => List.range' r.1 (r.2 - r.1)).flatten
      = List.range' 0 t := by
  unfold splitRanges
  rw [List.map_map]
  have h2 : t ≤ (t + cs - 1) / cs * cs := le_mul_chunkSize t cs hcs
  have h3 : min ((t + cs - 1) / cs * cs) t = t := by omega
  have h4 : ((List.range ((t + cs - 1) / cs)).map
      ((fun r => List.range' r.1 (r.2 - r.1)) ∘ fun i =>
        (min (i * cs) t, min ((i + 1) * cs) t))).flatten
      = List.range' 0 (min ((t + cs - 1) / cs * cs) t) :=
    flatten_range_chunks t cs ((t + cs - 1) / cs)
  rw [h4, h3]

theorem preprocess_entries (obj : List Char) (cs : Nat) (hcs : 1 ≤ cs) :
    (preprocess obj cs).entries
      = (List.range' 0 obj.length).filter fun p => isHeaderStart obj p := by
  show ((splitRanges obj.length cs).map (scanRange obj)).flatten = _
  have h1 : (splitRanges obj.length cs).map (scanRange obj)
      = (splitRanges obj.length cs).map fun r =>
          (List.range' r.1 (r.2 - r.1)).filter fun p => isHeaderStart obj p := rfl
  rw [h1, flatten_map_filter, splitRanges_flatten obj.length cs hcs]

theorem countScan_drop (obj : List Char) :
    ∀ (l : List Char) (k : Nat), l = obj.drop k →
      countScan l (k == 0 || obj.getD (k - 1) ' ' == '\n')
        = ((List.range' k (obj.length - k)).filter fun p => isHeaderStart obj p).length := by
  intro l
  induction l with
  | nil =>
    intro k hk
    have hlen : obj.length ≤ k := by
      have h1 := congrArg List.length hk
      simp only [List.length_nil, List.length_drop] at h1
      omega
    have h0 : obj.length - k = 0 := by omega
    simp [countScan, h0]
  | cons c rest ih =>
    intro k hk
    have hck : obj[k]? = some c := by
      have h1 : (obj.drop k).head? = some c := by rw [← hk]; rfl
      rwa [List.head?_drop] at h1
    have hkl : k < obj.length := by
      by_contra hge
      rw [List.getElem?_eq_none (by omega)] at hck
      exact Option.noConfusion hck
    have hrest : rest = obj.drop (k + 1) := by
      have h1 : (obj.drop k).tail = obj.drop (k + 1) := by
        rw [List.tail_drop]
      rw [← hk] at h1
      simpa using h1
    have hgetD : obj.getD k ' ' = c := by
      simp [List.getD_eq_getElem?_getD, hck]
    have hflag : ((k + 1 : Nat) == 0 || obj.getD (k + 1 - 1) ' ' == '\n')
        = (c == '\n') := by
      have hz : ((k + 1 : Nat) == 0) = false := by simp
      rw [hz, Bool.false_or, Nat.add_sub_cancel, hgetD]
    have hsplit : obj.length - k = (obj.length - (k + 1)) + 1 := by omega
    rw [hsplit, List.range'_succ, List.filter_cons]
    have hmain := ih (k + 1) hrest
    rw [hflag] at hmain
    show (if ((k == 0 || obj.getD (k - 1) ' ' == '\n') && c == '>') = true then 1 else 0)
        + countScan rest (c == '\n') = _
    rw [hmain]
    have hhead : isHeaderStart obj k
        = ((k == 0 || obj.getD (k - 1) ' ' == '\n') && c == '>') := by
      rw [isHeaderStart, hgetD]
      cases h1 : (c == '>') <;> cases h2 : (k == 0 || obj.getD (k - 1) ' ' == '\n') <;>
        simp [h1, h2]
    rw [hhead]
    cases hc : ((k == 0 || obj.getD (k - 1) ' ' == '\n') && c == '>') <;>
      simp [hc] <;> omega

theorem countHeadersScan_eq (obj : List Char) :
    countHeadersScan obj
      = ((List.range' 0 obj.length).filter fun p => isHeaderStart obj p).length := by
  have h := countScan_drop obj obj 0 (by simp)
  simpa [countHeadersScan] using h

/-- C4: for every object on which preprocessing has completed (with any positive
chunk size) and that contains at least one record, the attributes facade reports
`num_sequences` equal to the index's `record_count`, and `record_count` equals
the number of record-header sentinels found by an independent single-pass linear
scan of the entire unpartitioned object. -/
theorem c4_num_sequences (obj : List Char) (chunk_size : Nat)
    (hcs : 1 ≤ chunk_size)
    (hrec : 1 ≤ (preprocess obj chunk_size).record_count) :
    (attributes { indexed := some (preprocess obj chunk_size) }).1
      = Except.ok { num_sequences := (preprocess obj chunk_size).record_count } ∧
    (preprocess obj chunk_size).record_count = countHeadersScan obj := by
  constructor
  · rfl
  · have h1 := preprocess_entries obj chunk_size hcs
    have h2 : (preprocess obj chunk_size).record_count
        = (preprocess obj chunk_size).entries.length := rfl
    rw [h2, h1, countHeadersScan_eq]

theorem header_lt_length (obj : List Char) (p : Nat)
    (h : isHeaderStart obj p = true) : p < obj.length := by
  by_contra hge
  have hd : obj.getD p ' ' = ' ' := by
    rw [List.getD_eq_getElem?_getD, List.getElem?_eq_none (by omega)]
    rfl
  rw [isHeaderStart, hd] at h
  simp at h

/-- C5: in the merged index produced by preprocessing's parallel range-scan, any
true record header (in particular one whose body spills into the following
chunk) appears as exactly one entry — no duplicates — and a chunk boundary that
does not itself start a record (a chunk beginning mid-record, without a header)
never becomes a new zero-length entry. -/
theorem c5_boundary_record (obj : List Char) (chunk_size : Nat) (p b : Nat)
    (hcs : 1 ≤ chunk_size) :
    (isHeaderStart obj p = true →
      (preprocess obj chunk_size).entries.count p = 1) ∧
    (isHeaderStart obj b = false →
      b ∉ (preprocess obj chunk_size).entries) := by
  rw [preprocess_entries obj chunk_size hcs]
  constructor
  · intro hp
    have hlt : p < obj.length := header_lt_length obj p hp
    have hmem : p ∈ List.range' 0 obj.length := by
      rw [List.mem_range'_1]
      omega
    rw [List.count_filter hp, List.count_eq_one_of_mem (List.nodup_range' _ _) hmem]
  · intro hb hmem
    rw [List.mem_filter] at hmem
    rw [hb] at hmem
    exact Bool.noConfusion hmem.2

/-- Witness for C4 on the five-byte object containing one record. -/
theorem c4_witness :
    (1 : Nat) ≤ 2 ∧
    1 ≤ (preprocess ['>', 'a', '\n', 'A', 'C'] 2).record_count ∧
    (preprocess ['>', 'a', '\n', 'A', 'C'] 2).record_count
      = countHeadersScan ['>', 'a', '\n', 'A', 'C'] :=
  ⟨by decide, by decide,
    (c4_num_sequences ['>', 'a', '\n', 'A', 'C'] 2 (by decide) (by decide)).2⟩

/-- Witness for C5: the header at offset 0 lies in chunk 0 and its body spills
past the chunk boundary at offset 2; the merged index holds exactly one entry
for it and none for the boundary. -/
theorem c5_witness :
    isHeaderStart ['>', 'a', '\n', 'A', 'C', 'G', 'T'] 0 = true ∧
    isHeaderStart ['>', 'a', '\n', 'A', 'C', 'G', 'T'] 2 = false ∧
    (preprocess ['>', 'a', '\n', 'A', 'C', 'G', 'T'] 2).entries.count 0 = 1 ∧
    2 ∉ (preprocess ['>', 'a', '\n', 'A', 'C', 'G', 'T'] 2).entries :=
  ⟨by decide, by decide,
    (c5_boundary_record ['>', 'a', '\n', 'A', 'C', 'G', 'T'] 2 0 2 (by decide)).1
      (by decide),
    (c5_boundary_record ['>', 'a', '\n', 'A', 'C', 'G', 'T'] 2 0 2 (by decide)).2
      (by decide)⟩

theorem splitLines_no_newline (l : List Char) (h : '\n' ∉ l) :
    splitLines l = [l] := by
  induction l with
  | nil => rfl
  | cons c rest ih =>
    have hc : ¬(c = '\n') := fun hc => h (by simp [hc])
    have hr : '\n' ∉ rest := fun hr => h (by simp [hr])
    rw [splitLines, if_neg hc, ih hr]

theorem splitLines_header (l t : List Char) (h : '\n' ∉ l) :
    splitLines (l ++ '\n' :: t) = l :: splitLines t := by
  induction l with
  | nil =>
    show splitLines ('\n' :: t) = [] :: splitLines t
    rw [splitLines, if_pos rfl]
  | cons c rest ih =>
    have hc : ¬(c = '\n') := fun hc => h (by simp [hc])
    have hr : '\n' ∉ rest := fun hr => h (by simp [hr])
    show splitLines (c :: (rest ++ '\n' :: t)) = (c :: rest) :: splitLines t
    rw [splitLines, if_neg hc, ih hr]

theorem dropWhile_eq_self_all (p : Char → Bool) (l : List Char)
    (h : ∀ c ∈ l, p c = false) : l.dropWhile p = l := by
  cases l with
  | nil => rfl
  | cons c rest =>
    rw [List.dropWhile_cons_of_neg]
    simp [h c (by simp)]

theorem strip_eq_self (l : List Char) (h : ∀ c ∈ l, c.isWhitespace = false) :
    strip l = l := by
  rw [strip, dropWhile_eq_self_all _ l h, dropWhile_eq_self_all, List.reverse_reverse]
  intro c hc
  exact h c (List.mem_reverse.mp hc)

theorem worker_single_line (seg : List Char) (hne : seg ≠ [])
    (hclean : ∀ c ∈ seg, c ≠ '\n' ∧ c ≠ '>' ∧ c.isWhitespace = false) :
    (process_fasta_partition seg).record_count = 1 := by
  have hnl : '\n' ∉ seg := fun hmem => (hclean _ hmem).1 rfl
  have hsplit : splitLines seg = [seg] := splitLines_no_newline seg hnl
  have hhd : startsWithGt seg = false := by
    cases seg with
    | nil => rfl
    | cons c rest =>
      have : ¬(c = '>') := (hclean c (by simp)).2.1
      simp [startsWithGt, this]
  have hstrip : strip seg = seg := strip_eq_self seg fun c hc => (hclean c hc).2.2
  have hlens : processLines (splitLines seg) [] = [seg.length] := by
    rw [hsplit]
    show processLines [seg] [] = [seg.length]
    rw [processLines, if_neg (by simp [hhd])]
    show processLines [] ([] ++ strip seg) = [seg.length]
    rw [List.nil_append, hstrip, processLines,
      if_neg (by simpa [List.isEmpty_iff] using hne)]
  unfold process_fasta_partition
  rw [hlens]
  rfl

theorem worker_header_line (header rest : List Char)
    (hh : startsWithGt header = true) (hhn : '\n' ∉ header) (hne : rest ≠ [])
    (hclean : ∀ c ∈ rest, c ≠ '\n' ∧ c ≠ '>' ∧ c.isWhitespace = false) :
    (process_fasta_partition (header ++ '\n' :: rest)).record_count = 1 := by
  have hnl : '\n' ∉ rest := fun hmem => (hclean _ hmem).1 rfl
  have hhd : startsWithGt rest = false := by
    cases rest with
    | nil => rfl
    | cons c r2 =>
      have : ¬(c = '>') := (hclean c (by simp)).2.1
      simp [startsWithGt, this]
  have hstrip : strip rest = rest := strip_eq_self rest fun c hc => (hclean c hc).2.2
  have hlens : processLines (splitLines (header ++ '\n' :: rest)) [] = [rest.length] := by
    rw [splitLines_header header rest hhn, splitLines_no_newline rest hnl]
    show processLines [header, rest] [] = [rest.length]
    rw [processLines, if_pos hh, if_pos List.isEmpty_nil]
    rw [processLines, if_neg (by simp [hhd])]
    show processLines [] ([] ++ strip rest) = [rest.length]
    rw [List.nil_append, hstrip, processLines,
      if_neg (by simpa [List.isEmpty_iff] using hne)]
  unfold process_fasta_partition
  rw [hlens]
  rfl

theorem c3_mid_slice (header body : List Char) (s e : Nat)
    (hbody : ∀ c ∈ body, c ≠ '\n' ∧ c ≠ '>' ∧ c.isWhitespace = false)
    (h1 : header.length + 1 ≤ s) (h2 : s < e)
    (h3 : e ≤ header.length + 1 + body.length) :
    (process_fasta_partition
      (read_range (header ++ '\n' :: body) s e)).record_count = 1 := by
  have hobj : header ++ '\n' :: body = (header ++ ['\n']) ++ body := by simp
  have hdrop : (header ++ '\n' :: body).drop s
      = body.drop (s - (header.length + 1)) := by
    rw [hobj, List.drop_append_eq_append_drop,
      List.drop_eq_nil_of_le (by simp; omega)]
    simp
  have hseg : read_range (header ++ '\n' :: body) s e
      = (body.drop (s - (header.length + 1))).take (e - s) := by
    rw [read_range, hdrop]
  rw [hseg]
  apply worker_single_line
  · have hlen : ((body.drop (s - (header.length + 1))).take (e - s)).length
        = min (e - s) (body.length - (s - (header.length + 1))) := by
      simp [List.length_take, List.length_drop]
    intro hnil
    rw [hnil] at hlen
    simp only [List.length_nil] at hlen
    omega
  · intro c hc
    exact hbody c (List.mem_of_mem_drop (List.mem_of_mem_take hc))

theorem c3_first_slice (header body : List Char)
    (hh : startsWithGt header = true) (hhn : '\n' ∉ header)
    (hbody : ∀ c ∈ body, c ≠ '\n' ∧ c ≠ '>' ∧ c.isWhitespace = false)
    (hhl : header.length + 2 ≤ 3738)
    (hbig : 3738 ≤ header.length + 1 + body.length) :
    (process_fasta_partition
      (read_range (header ++ '\n' :: body) 0 3738)).record_count = 1 := by
  have htake : read_range (header ++ '\n' :: body) 0 3738
      = header ++ '\n' :: body.take (3737 - header.length) := by
    rw [read_range, List.drop_zero, Nat.sub_zero, List.take_append_eq_append_take,
      List.take_of_length_le (by omega),
      show 3738 - header.length = (3737 - header.length) + 1 by omega,
      List.take_succ_cons]
  rw [htake]
  apply worker_header_line header _ hh hhn
  · have hlen : (body.take (3737 - header.length)).length
        = min (3737 - header.length) body.length := by
      simp [List.length_take]
    intro hnil
    rw [hnil] at hlen
    simp only [List.length_nil] at hlen
    omega
  · intro c hc
    exact hbody c (List.mem_of_mem_take hc)

/-- C3: for an object of exactly 29903 bytes containing exactly one record — a
header line starting with the sentinel, fitting inside the first slice, followed
by one newline and a body of plain sequence bytes, the shape observed in the
notebook run — partitioning into 8 contiguous byte-range slices and summing the
`record_count` returned by the demo worker over all 8 slices yields exactly 8:
each fragment lacking a header still counts as one pseudo-record. -/
theorem c3_total_records (header body : List Char)
    (hh : startsWithGt header = true)
    (hhn : '\n' ∉ header)
    (hhl : header.length ≤ 3736)
    (hlen : header.length + 1 + body.length = 29903)
    (hbody : ∀ c ∈ body, c ≠ '\n' ∧ c ≠ '>' ∧ c.isWhitespace = false) :
    ((slicesOf (header ++ '\n' :: body) (partition_chunks_strategy 29903 8)).map
        fun ch => (process_fasta_partition ch).record_count).sum = 8 := by
  have hranges : partition_chunks_strategy 29903 8
      = [(0, 3738), (3738, 7476), (7476, 11214), (11214, 14952), (14952, 18690),
         (18690, 22428), (22428, 26166), (26166, 29903)] := by decide
  rw [hranges]
  simp only [slicesOf, List.map_cons, List.map_nil, List.sum_cons, List.sum_nil]
  rw [c3_first_slice header body hh hhn hbody (by omega) (by omega),
    c3_mid_slice header body 3738 7476 hbody (by omega) (by omega) (by omega),
    c3_mid_slice header body 7476 11214 hbody (by omega) (by omega) (by omega),
    c3_mid_slice header body 11214 14952 hbody (by omega) (by omega) (by omega),
    c3_mid_slice header body 14952 18690 hbody (by omega) (by omega) (by omega),
    c3_mid_slice header body 18690 22428 hbody (by omega) (by omega) (by omega),
    c3_mid_slice header body 22428 26166 hbody (by omega) (by omega) (by omega),
    c3_mid_slice header body 26166 29903 hbody (by omega) (by omega) (by omega)]
  rfl

/-- Witness for C3: the notebook object's header line followed by a 29890-byte
single-line body. -/
theorem c3_witness :
    startsWithGt ['>', 'S', 'R', 'R', '1', '6', '8', '0', '4', '9', '9', '4'] = true ∧
    ((slicesOf
        (['>', 'S', 'R', 'R', '1', '6', '8', '0', '4', '9', '9', '4']
          ++ '\n' :: List.replicate 29890 'A')
        (partition_chunks_strategy 29903 8)).map
      fun ch => (process_fasta_partition ch).record_count).sum = 8 :=
  ⟨by decide,
    c3_total_records ['>', 'S', 'R', 'R', '1', '6', '8', '0', '4', '9', '9', '4']
      (List.replicate 29890 'A') (by decide) (by decide) (by decide)
      (by
        rw [List.length_replicate,
          show (['>', 'S', 'R', 'R', '1', '6', '8', '0', '4', '9', '9', '4']
              : List Char).length = 12 from rfl])
      (fun c hc => by
        rw [List.eq_of_mem_replicate hc]
        decide)⟩
